import Mathlib

/-!
Verification of the Prusa-Link-Web file-browser state cycle and upload widget.

The JavaScript sources are shallowly embedded: the mutable `metadata` object
becomes an explicit `Metadata` value threaded through the handlers, DOM calls
are dropped (only the redraw decisions are kept as booleans), and a JavaScript
expression that can throw a TypeError is modelled with the `JSRes` result type.
-/

/-- Result of evaluating a JavaScript expression: either a value, or a thrown
TypeError (e.g. reading `.find` of `undefined`). -/
inductive JSRes (α : Type) where
  | throws : JSRes α
  | ok : α → JSRes α
deriving Repr

/-- A node of the cached file tree (`metadata.files`).  Fields follow the
FileSystemNode shape: `children` is absent (`none`) on leaf nodes, `origin`
is present on root nodes, `date`/`size` may be missing. -/
inductive FsNode : Type where
  | mk : (name : String) → (display : String) → (origin : Option String) →
      (type : String) → (date : Option Int) → (size : Option Int) →
      (children : Option (List FsNode)) → FsNode

def FsNode.name : FsNode → String
  | .mk n _ _ _ _ _ _ => n

def FsNode.display : FsNode → String
  | .mk _ d _ _ _ _ _ => d

def FsNode.origin : FsNode → Option String
  | .mk _ _ o _ _ _ _ => o

def FsNode.type : FsNode → String
  | .mk _ _ _ t _ _ _ => t

def FsNode.date : FsNode → Option Int
  | .mk _ _ _ _ d _ _ => d

def FsNode.size : FsNode → Option Int
  | .mk _ _ _ _ _ s _ => s

def FsNode.children : FsNode → Option (List FsNode)
  | .mk _ _ _ _ _ _ c => c

/-- The node's children as a list, empty when the `children` field is absent. -/
def FsNode.childrenList (n : FsNode) : List FsNode :=
  n.children.getD []

/-- Model of JavaScript `s.split("/")`: split a string at every `/`,
keeping empty pieces (so `"/a//b"` gives `["", "a", "", "b"]`). -/
def splitOnSlash : List Char → List (List Char)
  | [] => [[]]
  | c :: cs =>
    match splitOnSlash cs with
    | [] => [[]]
    | g :: gs => if c = '/' then [] :: g :: gs else (c :: g) :: gs

def jsSplitSlash (s : String) : List String :=
  (splitOnSlash s.data).map (fun l => String.mk l)

/-- The `for (const segment of pathSegments)` loop body of `findFile`
(part_000 lines 654-657).  When the current target is a node without a
`children` array, `target.children.find(...)` throws a TypeError. -/
def findFileLoop : Option FsNode → List String → JSRes (Option FsNode)
  | target, [] => .ok target
  | none, _ :: _ => .ok none
  | some t, seg :: rest =>
    match t.children with
    | none => .throws
    | some cs => findFileLoop (cs.find? (fun i => i.name == seg)) rest

/-- findFile (part_000 lines 642-660): look a file up in the cached tree by
origin and path.  `isFdm` is the `process.env.PRINTER_TYPE === "fdm"` build
flag; `files` stands for `metadata.files`.  Falsy argument strings are the
empty string. -/
def findFile (isFdm : Bool) (files : List FsNode) (origin path : String) :
    JSRes (Option FsNode) :=
  if origin = "" ∨ path = "" then .ok none
  else
    let target0 := files.find? (fun i => i.origin == some origin)
    let segs := (jsSplitSlash path).filter (fun s => s ≠ "")
    let pathSegments := if isFdm then segs.drop 1 else segs
    match findFileLoop target0 pathSegments with
    | .throws => .throws
    | .ok t =>
      .ok (match t with
        | some f => if f.type == "machinecode" then some f else none
        | none => none)

/-- The lookup as the spec words it (spec.md §4.4): walk the tree from the
matching origin root, consuming path segments in order; null if any segment
is missing or the terminal node is not a file type. -/
def specFindFile (isFdm : Bool) (files : List FsNode) (origin path : String) :
    Option FsNode :=
  if origin = "" ∨ path = "" then none
  else
    let segs := (jsSplitSlash path).filter (fun s => s ≠ "")
    let pathSegments := if isFdm then segs.drop 1 else segs
    let walk := pathSegments.foldl
      (fun acc seg => acc.bind (fun t => t.childrenList.find? (fun i => i.name == seg)))
      (files.find? (fun i => i.origin == some origin))
    match walk with
    | some f => if f.type == "machinecode" then some f else none
    | none => none

mutual

/-- Every node of the tree carries a `children` array (possibly empty), so no
walk through it can hit `undefined.find`. -/
def allChildrenDefined : FsNode → Bool
  | .mk _ _ _ _ _ _ none => false
  | .mk _ _ _ _ _ _ (some cs) => allChildrenDefinedList cs

def allChildrenDefinedList : List FsNode → Bool
  | [] => true
  | c :: cs => allChildrenDefined c && allChildrenDefinedList cs

end

theorem sizeOf_filter_le (p : FsNode → Bool) (l : List FsNode) :
    sizeOf (l.filter p) ≤ sizeOf l := by
  induction l with
  | nil => simp
  | cons c cs ih =>
    rw [List.filter_cons]
    cases h : p c with
    | true =>
      simp only [if_true]
      simp only [List.cons.sizeOf_spec]
      omega
    | false =>
      simp only [Bool.false_eq_true, if_false]
      simp only [List.cons.sizeOf_spec]
      omega

theorem sizeOf_childrenList_lt (n : FsNode) : sizeOf n.childrenList < sizeOf n := by
  cases n with
  | mk a b o t d s ch =>
    cases ch with
    | none =>
      simp [FsNode.childrenList, FsNode.children]
    | some cs =>
      simp [FsNode.childrenList, FsNode.children]
      omega

theorem sizeOf_filter_childrenList_lt (p : FsNode → Bool) (n : FsNode) :
    sizeOf (n.childrenList.filter p) < sizeOf n :=
  Nat.lt_of_le_of_lt (sizeOf_filter_le p n.childrenList) (sizeOf_childrenList_lt n)

mutual

/-- countFoldersRecursively (part_000 lines 614-619): direct folder children
plus a recursive count inside every folder child. -/
def countFoldersRecursively (n : FsNode) : Nat :=
  let folders := n.childrenList.filter (fun i => i.type == "folder")
  folders.length + sumCountFolders folders
termination_by sizeOf n
decreasing_by
  exact sizeOf_filter_childrenList_lt _ n

/-- The `folders.forEach((i) => (count += countFoldersRecursively(i)))`
accumulation. -/
def sumCountFolders : List FsNode → Nat
  | [] => 0
  | c :: cs => countFoldersRecursively c + sumCountFolders cs
termination_by l => sizeOf l
decreasing_by
  all_goals simp only [List.cons.sizeOf_spec]
  all_goals omega

end

mutual

/-- countFilesRecursively (part_000 lines 621-627): direct machinecode
children plus a recursive count inside every folder child. -/
def countFilesRecursively (n : FsNode) : Nat :=
  let files := n.childrenList.filter (fun i => i.type == "machinecode")
  let folders := n.childrenList.filter (fun i => i.type == "folder")
  files.length + sumCountFiles folders
termination_by sizeOf n
decreasing_by
  exact sizeOf_filter_childrenList_lt _ n

/-- The `folders.forEach((i) => (count += countFilesRecursively(i)))`
accumulation. -/
def sumCountFiles : List FsNode → Nat
  | [] => 0
  | c :: cs => countFilesRecursively c + sumCountFiles cs
termination_by l => sizeOf l
decreasing_by
  all_goals simp only [List.cons.sizeOf_spec]
  all_goals omega

end

mutual

/-- Reference walk for the claim about the counters: the descendants of a
node are its children together with the descendants of every folder child. -/
def specDescendants (n : FsNode) : List FsNode :=
  n.childrenList ++ specDescendantsList (n.childrenList.filter (fun i => i.type == "folder"))
termination_by sizeOf n
decreasing_by
  exact sizeOf_filter_childrenList_lt _ n

def specDescendantsList : List FsNode → List FsNode
  | [] => []
  | c :: cs => specDescendants c ++ specDescendantsList cs
termination_by l => sizeOf l
decreasing_by
  all_goals simp only [List.cons.sizeOf_spec]
  all_goals omega

end

/-- The current sort settings (`metadata.sort`). -/
structure SortState where
  field : String
  order : String
deriving DecidableEq, Repr

/-- The compareFiles comparator inside sortFiles (part_000 lines 85-104).
`lc` models `String.prototype.localeCompare` for the active locale; missing
dates and sizes are defaulted to 0 by the `|| 0` fallbacks. -/
def compareFiles (sort : SortState) (lc : String → String → Int)
    (f1 f2 : FsNode) : Int :=
  if f1.type = "folder" ∧ f2.type ≠ "folder" then -1
  else if f1.type ≠ "folder" ∧ f2.type = "folder" then 1
  else
    let order : Int := if sort.order = "desc" then -1 else 1
    if sort.field = "date" then order * (f1.date.getD 0 - f2.date.getD 0)
    else if sort.field = "size" then order * (f1.size.getD 0 - f2.size.getD 0)
    else order * lc f1.display f2.display

/-- sortFiles (part_000 lines 84-107).  `files.sort(compareFiles)` is the
ECMAScript stable in-place sort; it is modelled by the stable `mergeSort`
with the non-positive-comparator relation. -/
def sortFiles (sort : SortState) (lc : String → String → Int)
    (files : List FsNode) : List FsNode :=
  files.mergeSort (fun f1 f2 => decide (compareFiles sort lc f1 f2 ≤ 0))

/-- The per-field order the claim describes for two entries of equal
folder-ness: by date, size, or localized display-name, ascending or
descending per the current sort order. -/
def specFieldLE (sort : SortState) (lc : String → String → Int)
    (f1 f2 : FsNode) : Prop :=
  if sort.field = "date" then
    if sort.order = "desc" then f2.date.getD 0 ≤ f1.date.getD 0
    else f1.date.getD 0 ≤ f2.date.getD 0
  else if sort.field = "size" then
    if sort.order = "desc" then f2.size.getD 0 ≤ f1.size.getD 0
    else f1.size.getD 0 ≤ f2.size.getD 0
  else
    if sort.order = "desc" then 0 ≤ lc f1.display f2.display
    else lc f1.display f2.display ≤ 0

/-- A degenerate but legal collation (every pair of strings ties), used to
instantiate the sorting theorem on concrete data. -/
def lcConst (_a _b : String) : Int := 0

/-- Cached per-storage record (the values of `metadata.storages`,
built in updateStorage, part_000 lines 119-129). -/
structure StorageInfo where
  name : String
  path : String
  available : Bool
  readOnly : Bool
  freeSpace : Option Int
  totalSpace : Option Int
deriving DecidableEq, Repr

/-- One element of the `/api/v1/storage` response's `storage_list`. -/
structure StorageEntry where
  type : String
  name : String
  path : String
  available : Bool
  ro : Bool
  free_space : Option Int
  total_space : Option Int
deriving DecidableEq, Repr

/-- The `storageData` record built from a response entry
(part_000 lines 119-129). -/
def storageDataOf (e : StorageEntry) : StorageInfo :=
  { name := e.name, path := e.path, available := e.available,
    readOnly := e.ro, freeSpace := e.free_space, totalSpace := e.total_space }

/-- Insertion-ordered string-keyed map, modelling a JavaScript object:
assigning to an existing key updates it in place, a new key is appended. -/
def setKey : List (String × StorageInfo) → String → StorageInfo →
    List (String × StorageInfo)
  | [], k, v => [(k, v)]
  | (k', v') :: rest, k, v =>
    if k' = k then (k, v) :: rest else (k', v') :: setKey rest k v

/-- Key lookup in the insertion-ordered map (`metadata.storages[key]`). -/
def getKey? (m : List (String × StorageInfo)) (k : String) : Option StorageInfo :=
  (m.find? (fun p => p.1 = k)).map (fun p => p.2)

/-- The file context (the module-level `metadata` object, part_000 lines
43-53).  `origin = none` covers both the initial `null` and the `false`
written when the selected storage disappears. -/
structure Metadata where
  origin : Option String
  current_path : List String
  storages : List (String × StorageInfo)
  files : List FsNode
  eTag : Option String
  sort : SortState

/-- Modelled from the spec: the getJson helper lives in src/auth.js, which is
not part of the sources; per spec.md §6 and the glossary, a file-listing
response resolves with the endpoint's ETag change-token and the parsed body. -/
structure FilesResponse where
  eTag : String
  files : List FsNode

/-- selectStorage (part_000 lines 629-640).  The DOM-only clearFiles calls
are dropped; the returned flag records whether the forced file fetch
(`updateFiles({force: true})`) was issued. -/
def selectStorage (meta : Metadata) (origin : String) : Metadata × Bool :=
  match getKey? meta.storages origin with
  | some storage =>
    if storage.available then
      ({ meta with origin := some origin, current_path := [storage.name] }, true)
    else (meta, false)
  | none => (meta, false)

/-- One iteration of the `list.forEach` body in updateStorage (part_000
lines 117-154).  The accumulator carries the metadata plus the
`redrawTabs` and `redrawStorageDetails` flags. -/
def processStorageEntry (acc : Metadata × Bool × Bool) (entry : StorageEntry) :
    Metadata × Bool × Bool :=
  let meta := acc.1
  let redrawTabs := acc.2.1
  let redrawStorageDetails := acc.2.2
  let storageType := entry.type
  let storageData := storageDataOf entry
  match getKey? meta.storages storageType with
  | some storage =>
    let redrawTabs' := redrawTabs || (storage.available != storageData.available)
    let origin' :=
      if storage.available ≠ storageData.available ∧
          meta.origin = some storageType ∧ storageData.available = false
      then none else meta.origin
    let redrawStorageDetails' := redrawStorageDetails ||
      (storage.freeSpace != storageData.freeSpace && origin' == some storageType)
    ({ meta with
        origin := origin',
        storages := setKey meta.storages storageType storageData },
      redrawTabs', redrawStorageDetails')
  | none =>
    ({ meta with storages := setKey meta.storages storageType storageData },
      true, true)

/-- The `if (list) list.forEach(...)` part of updateStorage (part_000 lines
116-155): merge a poll response into the cached state. -/
def foldStorageList (redrawOpt : Bool) (meta : Metadata)
    (storage_list : Option (List StorageEntry)) : Metadata × Bool × Bool :=
  match storage_list with
  | some list => list.foldl processStorageEntry (meta, redrawOpt, redrawOpt)
  | none => (meta, redrawOpt, redrawOpt)

/-- The `if (!metadata.origin)` selection step of updateStorage (part_000
lines 157-164): pick the first available storage, iterating
`Object.keys(metadata.storages)` in insertion order. -/
def autoselectStorage (m1 : Metadata) : Metadata :=
  if m1.origin = none then
    match m1.storages.find? (fun p => p.2.available) with
    | some p => (selectStorage m1 p.1).1
    | none => m1
  else m1

/-- The updateStorage response handler (part_000 lines 109-175).  The input
`storage_list` is `result.data?.storage_list`; `redrawOpt` is `opts.redraw`.
The `storage.update` DOM call is dropped; the returned flags are
`redrawTabs` and `redrawStorageDetails`. -/
def updateStorage (redrawOpt : Bool) (meta : Metadata)
    (storage_list : Option (List StorageEntry)) : Metadata × Bool × Bool :=
  let acc1 := foldStorageList redrawOpt meta storage_list
  (autoselectStorage acc1.1, acc1.2)

/-- The updateFiles poll (part_000 lines 177-208) applied to one response.
The `if (!selectStorage) return` guard tests the selectStorage function (a
dead guard); the real early exit is the `metadata.storages[selectedStorage]`
lookup.  URL building, the initUpload call and the DOM clear/redraw are
dropped; the returned flag records whether clearFiles/redrawFiles ran. -/
def updateFiles (force : Bool) (meta : Metadata) (resp : FilesResponse) :
    Metadata × Bool :=
  match meta.origin with
  | none => (meta, false)
  | some o =>
    match getKey? meta.storages o with
    | none => (meta, false)
    | some _storage =>
      let lastETag := if force then none else meta.eTag
      let meta1 := if force then { meta with eTag := none } else meta
      if some resp.eTag ≠ lastETag then
        ({ meta1 with
            eTag := some resp.eTag,
            files := resp.files }, true)
      else
        (meta1, false)

/-- Availability of a key in the cached storage map: false when the key is
missing. -/
def availAt (m : List (String × StorageInfo)) (k : String) : Bool :=
  match getKey? m k with
  | none => false
  | some st => st.available

/-- The selected origin is unset, or the cached record it names is
available. -/
def originInv (meta : Metadata) : Bool :=
  match meta.origin with
  | none => true
  | some o => availAt meta.storages o

/-- The request-level error object a failed upload may carry (the `result`
argument of the catch handler in direct.js). -/
structure UploadErrorResult where
  code : Nat
  message : String
deriving DecidableEq, Repr

/-- What the upload failure path does: delegate to the shared handleError,
or raise the translated error toast. -/
inductive UploadFailureAction where
  | handled : UploadErrorResult → UploadFailureAction
  | errorToast : (titleKey msgKey fileName : String) → UploadFailureAction
deriving DecidableEq, Repr

/-- onUploadError (direct.js lines 101-109): a present result object goes to
handleError, otherwise the generic unsuccessful-upload toast is raised with
the file name. -/
def onUploadError (fileName : String) (result : Option UploadErrorResult) :
    UploadFailureAction :=
  match result with
  | some r => UploadFailureAction.handled r
  | none => UploadFailureAction.errorToast "ntf.error" "ntf.upld-unsuc" fileName

/-- State of the direct-upload widget (direct.js): the module-level
`isUploading` and `progress`, the `data-state` attribute, plus two counters
for asynchronous work: file reads started by `uploadFile` whose
`file.arrayBuffer()` promise has not resolved yet, and upload requests in
flight. -/
structure UploadState where
  isUploading : Bool
  progress : Nat
  widget : String
  reading : Nat
  inflight : Nat
deriving DecidableEq, Repr

/-- Events of the upload widget.  `change b` is the file-input change event
(`b`: a file is selected); `readDone` is the resolution of
`file.arrayBuffer()` inside `uploadFile` (which then sets the uploading
state and starts the request); `progressEvent` is the onProgress callback;
`settle` is the settling of the upload promise (success or failure), whose
`finally` runs `reset`. -/
inductive UploadEvent where
  | change : Bool → UploadEvent
  | readDone : UploadEvent
  | progressEvent : Nat → UploadEvent
  | settle : UploadEvent
deriving DecidableEq, Repr

/-- One step of the direct-upload widget (direct.js lines 40-93 and 56-61):
the change handler guard `input.files.length > 0 && !isUploading`, the
`arrayBuffer().then` body (`setState("uploading"); setProgress(0)` and the
request start), `onProgressChanged`, and `reset` in the `finally`. -/
def uploadStep (s : UploadState) (e : UploadEvent) : UploadState :=
  match e with
  | .change hasFiles =>
    if hasFiles && !s.isUploading then { s with reading := s.reading + 1 } else s
  | .readDone =>
    if s.reading > 0 then
      { s with
          reading := s.reading - 1,
          inflight := s.inflight + 1,
          isUploading := true,
          widget := "uploading",
          progress := 0 }
    else s
  | .progressEvent pct =>
    if s.inflight > 0 then
      { s with isUploading := true, widget := "uploading", progress := pct }
    else s
  | .settle =>
    if s.inflight > 0 then
      { s with
          inflight := s.inflight - 1,
          progress := 0,
          widget := "choose",
          isUploading := false }
    else s

/-! Concrete fixtures used by witnesses and counterexamples. -/

def fileLeafA : FsNode := .mk "a" "a" none "machinecode" none none none

def rootLocalLeafy : FsNode :=
  .mk "local" "Local" (some "local") "folder" none none (some [fileLeafA])

def fileWithChildren : FsNode :=
  .mk "a" "a" none "machinecode" (some 5) (some 100) (some [])

def rootLocalDefined : FsNode :=
  .mk "local" "Local" (some "local") "folder" none none (some [fileWithChildren])

def infoOf (nm : String) (avail : Bool) : StorageInfo :=
  { name := nm, path := "/" ++ nm, available := avail, readOnly := false,
    freeSpace := some 1000, totalSpace := some 2000 }

def entryOf (ty nm : String) (avail : Bool) : StorageEntry :=
  { type := ty, name := nm, path := "/" ++ nm, available := avail, ro := false,
    free_space := some 1000, total_space := some 2000 }

def baseSort : SortState := { field := "date", order := "desc" }

def baseMeta : Metadata :=
  { origin := none, current_path := [], storages := [], files := [],
    eTag := none, sort := baseSort }

/-! Lemmas about the file-tree walk. -/

theorem allChildrenDefinedList_mem {cs : List FsNode} {c : FsNode}
    (h : allChildrenDefinedList cs = true) (hm : c ∈ cs) :
    allChildrenDefined c = true := by
  induction cs with
  | nil => cases hm
  | cons d ds ih =>
    rw [allChildrenDefinedList] at h
    rcases List.mem_cons.mp hm with rfl | hm'
    · exact (Bool.and_eq_true ..).mp h |>.1
    · exact ih ((Bool.and_eq_true ..).mp h).2 hm'

theorem allChildrenDefined_children {t : FsNode}
    (h : allChildrenDefined t = true) :
    ∃ cs, t.children = some cs ∧ allChildrenDefinedList cs = true := by
  cases t with
  | mk a b o ty d s ch =>
    cases ch with
    | none => simp [allChildrenDefined] at h
    | some cs => exact ⟨cs, rfl, by rw [allChildrenDefined] at h; exact h⟩

theorem specWalk_none (step : Option FsNode → String → Option FsNode)
    (hstep : ∀ s, step none s = none) (segs : List String) :
    segs.foldl step none = none := by
  induction segs with
  | nil => rfl
  | cons s rest ih => rw [List.foldl_cons, hstep]; exact ih

theorem findFileLoop_spec (segs : List String) (target : Option FsNode)
    (h : ∀ t, target = some t → allChildrenDefined t = true) :
    findFileLoop target segs =
      JSRes.ok (segs.foldl
        (fun acc seg => acc.bind
          (fun t => t.childrenList.find? (fun i => i.name == seg)))
        target) := by
  induction segs generalizing target with
  | nil => cases target <;> rfl
  | cons seg rest ih =>
    cases target with
    | none =>
      rw [findFileLoop, List.foldl_cons]
      have h0 : (none : Option FsNode).bind
          (fun t => t.childrenList.find? (fun i => i.name == seg)) = none := rfl
      rw [h0, specWalk_none
        (fun acc seg => acc.bind
          (fun t => t.childrenList.find? (fun i => i.name == seg)))
        (fun s => rfl) rest]
    | some t =>
      obtain ⟨cs, hch, hcs⟩ := allChildrenDefined_children (h t rfl)
      rw [findFileLoop, hch, List.foldl_cons]
      have hbind : (some t).bind
          (fun t => t.childrenList.find? (fun i => i.name == seg)) =
          cs.find? (fun i => i.name == seg) := by
        simp [Option.bind, FsNode.childrenList, hch]
      rw [hbind]
      apply ih
      intro t' ht'
      exact allChildrenDefinedList_mem hcs (List.mem_of_find?_eq_some ht')

/-- C1 (counterexample): the cached tree holds the machinecode leaf "a"
(which, per the data model, has no `children` array) under the "local"
root.  Looking up "/a/b" — a path whose segment "b" does not exist — makes
the loop evaluate `leafA.children.find`, so the call throws a TypeError
instead of returning null as the claim states. -/
theorem findFile_missing_segment_throws :
    findFile false [rootLocalLeafy] "local" "/a/b" = JSRes.throws := rfl

/-- C1 (amended): provided every node of the cached tree carries a
`children` array, `findFile` never throws and computes exactly the walk the
spec describes: segments consumed in order from the matching origin root,
null whenever a segment has no matching child or the terminal node is not
of the machinecode file type. -/
theorem findFile_refines_spec (isFdm : Bool) (files : List FsNode)
    (origin path : String) (h : files.all allChildrenDefined = true) :
    findFile isFdm files origin path =
      JSRes.ok (specFindFile isFdm files origin path) := by
  by_cases h0 : origin = "" ∨ path = ""
  · simp only [findFile, specFindFile, if_pos h0]
  · simp only [findFile, specFindFile, if_neg h0]
    have hpre : ∀ t, files.find? (fun i => i.origin == some origin) = some t →
        allChildrenDefined t = true := by
      intro t ht
      exact List.all_eq_true.mp h t (List.mem_of_find?_eq_some ht)
    rw [findFileLoop_spec _ _ hpre]

/-- C1 (witness): on a concrete tree where every node (the folder root and
the machinecode leaf) has a children array, the lookup of the missing
segment "b" agrees with the spec walk. -/
theorem findFile_refines_spec_witness :
    findFile false [rootLocalDefined] "local" "/a/b" =
      JSRes.ok (specFindFile false [rootLocalDefined] "local" "/a/b") :=
  findFile_refines_spec false [rootLocalDefined] "local" "/a/b" (by decide)

/-! Lemmas for the recursive counters. -/

theorem sizeOf_lt_of_mem_childrenList {c n : FsNode}
    (h : c ∈ n.childrenList) : sizeOf c < sizeOf n :=
  Nat.lt_trans (List.sizeOf_lt_of_mem h) (sizeOf_childrenList_lt n)

theorem sumCountFiles_congr (l : List FsNode)
    (h : ∀ c ∈ l, countFilesRecursively c =
      ((specDescendants c).filter (fun i => i.type == "machinecode")).length) :
    sumCountFiles l =
      ((specDescendantsList l).filter (fun i => i.type == "machinecode")).length := by
  induction l with
  | nil => simp [sumCountFiles, specDescendantsList]
  | cons c cs ih =>
    rw [sumCountFiles, specDescendantsList]
    rw [List.filter_append, List.length_append]
    rw [h c (List.mem_cons_self c cs), ih (fun d hd => h d (List.mem_cons_of_mem c hd))]

theorem sumCountFolders_congr (l : List FsNode)
    (h : ∀ c ∈ l, countFoldersRecursively c =
      ((specDescendants c).filter (fun i => i.type == "folder")).length) :
    sumCountFolders l =
      ((specDescendantsList l).filter (fun i => i.type == "folder")).length := by
  induction l with
  | nil => simp [sumCountFolders, specDescendantsList]
  | cons c cs ih =>
    rw [sumCountFolders, specDescendantsList]
    rw [List.filter_append, List.length_append]
    rw [h c (List.mem_cons_self c cs), ih (fun d hd => h d (List.mem_cons_of_mem c hd))]

theorem countFiles_eq_spec (n : FsNode) :
    countFilesRecursively n =
      ((specDescendants n).filter (fun i => i.type == "machinecode")).length := by
  suffices h : ∀ (k : Nat) (m : FsNode), sizeOf m = k → countFilesRecursively m =
      ((specDescendants m).filter (fun i => i.type == "machinecode")).length by
    exact h (sizeOf n) n rfl
  intro k
  induction k using Nat.strong_induction_on with
  | _ k ih =>
    intro m hk
    rw [countFilesRecursively, specDescendants]
    rw [List.filter_append, List.length_append]
    congr 1
    apply sumCountFiles_congr
    intro c hc
    have hmem : c ∈ m.childrenList := List.mem_of_mem_filter hc
    have hlt := sizeOf_lt_of_mem_childrenList hmem
    rw [hk] at hlt
    exact ih (sizeOf c) hlt c rfl

theorem countFolders_eq_spec (n : FsNode) :
    countFoldersRecursively n =
      ((specDescendants n).filter (fun i => i.type == "folder")).length := by
  suffices h : ∀ (k : Nat) (m : FsNode), sizeOf m = k → countFoldersRecursively m =
      ((specDescendants m).filter (fun i => i.type == "folder")).length by
    exact h (sizeOf n) n rfl
  intro k
  induction k using Nat.strong_induction_on with
  | _ k ih =>
    intro m hk
    rw [countFoldersRecursively, specDescendants]
    rw [List.filter_append, List.length_append]
    congr 1
    apply sumCountFolders_congr
    intro c hc
    have hmem : c ∈ m.childrenList := List.mem_of_mem_filter hc
    have hlt := sizeOf_lt_of_mem_childrenList hmem
    rw [hk] at hlt
    exact ih (sizeOf c) hlt c rfl

/-- C4: for every tree, countFilesRecursively and countFoldersRecursively
equal the number of machinecode-typed (resp. folder-typed) descendants
found by the reference depth-first walk that lists the children at each
level and recurses into every folder child. -/
theorem countRecursively_eq_descendant_counts (n : FsNode) :
    countFilesRecursively n =
      ((specDescendants n).filter (fun i => i.type == "machinecode")).length ∧
    countFoldersRecursively n =
      ((specDescendants n).filter (fun i => i.type == "folder")).length :=
  ⟨countFiles_eq_spec n, countFolders_eq_spec n⟩

/-! Lemmas for the sort comparator. -/

theorem lc_total_le (lc : String → String → Int)
    (hflip : ∀ a b, 0 ≤ lc a b ↔ lc b a ≤ 0) (a b : String) :
    lc a b ≤ 0 ∨ lc b a ≤ 0 := by
  by_cases h : lc a b ≤ 0
  · exact Or.inl h
  · exact Or.inr ((hflip a b).mp (by omega))

theorem lc_total_ge (lc : String → String → Int)
    (hflip : ∀ a b, 0 ≤ lc a b ↔ lc b a ≤ 0) (a b : String) :
    0 ≤ lc a b ∨ 0 ≤ lc b a := by
  by_cases h : 0 ≤ lc a b
  · exact Or.inl h
  · exact Or.inr ((hflip b a).mpr (by omega))

theorem lc_trans_ge (lc : String → String → Int)
    (hflip : ∀ a b, 0 ≤ lc a b ↔ lc b a ≤ 0)
    (htrans : ∀ a b c, lc a b ≤ 0 → lc b c ≤ 0 → lc a c ≤ 0)
    (a b c : String) (h1 : 0 ≤ lc a b) (h2 : 0 ≤ lc b c) : 0 ≤ lc a c :=
  (hflip a c).mpr (htrans c b a ((hflip b c).mp h2) ((hflip a b).mp h1))

theorem compareFiles_le_iff (sort : SortState) (lc : String → String → Int)
    (f1 f2 : FsNode) :
    compareFiles sort lc f1 f2 ≤ 0 ↔
      (f1.type = "folder" ∧ f2.type ≠ "folder") ∨
      ((f1.type = "folder" ↔ f2.type = "folder") ∧ specFieldLE sort lc f1 f2) := by
  unfold compareFiles specFieldLE
  by_cases h1 : f1.type = "folder" ∧ f2.type ≠ "folder"
  · rw [if_pos h1]
    constructor
    · intro _
      exact Or.inl h1
    · intro _
      omega
  · rw [if_neg h1]
    by_cases h2 : f1.type ≠ "folder" ∧ f2.type = "folder"
    · rw [if_pos h2]
      constructor
      · intro hle
        omega
      · intro hr
        rcases hr with h | ⟨hiff, _⟩
        · exact absurd h h1
        · exact absurd (hiff.mpr h2.2) h2.1
    · rw [if_neg h2]
      have hiff : f1.type = "folder" ↔ f2.type = "folder" := by tauto
      constructor
      · intro hle
        refine Or.inr ⟨hiff, ?_⟩
        dsimp only at hle
        split_ifs at hle ⊢ <;> omega
      · intro hr
        rcases hr with h | ⟨_, hfle⟩
        · exact absurd h h1
        · dsimp only
          split_ifs at hfle ⊢ <;> omega

theorem specFieldLE_total (sort : SortState) (lc : String → String → Int)
    (hflip : ∀ a b, 0 ≤ lc a b ↔ lc b a ≤ 0) (f1 f2 : FsNode) :
    specFieldLE sort lc f1 f2 ∨ specFieldLE sort lc f2 f1 := by
  unfold specFieldLE
  split_ifs
  all_goals try omega
  · exact lc_total_ge lc hflip f1.display f2.display
  · exact lc_total_le lc hflip f1.display f2.display

theorem specFieldLE_trans (sort : SortState) (lc : String → String → Int)
    (hflip : ∀ a b, 0 ≤ lc a b ↔ lc b a ≤ 0)
    (htrans : ∀ a b c, lc a b ≤ 0 → lc b c ≤ 0 → lc a c ≤ 0)
    (f1 f2 f3 : FsNode) (h1 : specFieldLE sort lc f1 f2)
    (h2 : specFieldLE sort lc f2 f3) : specFieldLE sort lc f1 f3 := by
  unfold specFieldLE at h1 h2 ⊢
  split_ifs at h1 h2 ⊢
  all_goals try omega
  all_goals first
    | exact lc_trans_ge lc hflip htrans _ _ _ h1 h2
    | exact htrans _ _ _ h1 h2

theorem compLE_total (sort : SortState) (lc : String → String → Int)
    (hflip : ∀ a b, 0 ≤ lc a b ↔ lc b a ≤ 0) (f1 f2 : FsNode) :
    (decide (compareFiles sort lc f1 f2 ≤ 0) ||
      decide (compareFiles sort lc f2 f1 ≤ 0)) = true := by
  rw [Bool.or_eq_true, decide_eq_true_eq, decide_eq_true_eq]
  rw [compareFiles_le_iff, compareFiles_le_iff]
  by_cases hA : f1.type = "folder" <;> by_cases hB : f2.type = "folder"
  · rcases specFieldLE_total sort lc hflip f1 f2 with h | h
    · exact Or.inl (Or.inr ⟨by tauto, h⟩)
    · exact Or.inr (Or.inr ⟨by tauto, h⟩)
  · exact Or.inl (Or.inl ⟨hA, hB⟩)
  · exact Or.inr (Or.inl ⟨hB, hA⟩)
  · rcases specFieldLE_total sort lc hflip f1 f2 with h | h
    · exact Or.inl (Or.inr ⟨by tauto, h⟩)
    · exact Or.inr (Or.inr ⟨by tauto, h⟩)

theorem compLE_trans (sort : SortState) (lc : String → String → Int)
    (hflip : ∀ a b, 0 ≤ lc a b ↔ lc b a ≤ 0)
    (htrans : ∀ a b c, lc a b ≤ 0 → lc b c ≤ 0 → lc a c ≤ 0)
    (f1 f2 f3 : FsNode)
    (h1 : decide (compareFiles sort lc f1 f2 ≤ 0) = true)
    (h2 : decide (compareFiles sort lc f2 f3 ≤ 0) = true) :
    decide (compareFiles sort lc f1 f3 ≤ 0) = true := by
  rw [decide_eq_true_eq, compareFiles_le_iff] at h1 h2 ⊢
  rcases h1 with ⟨hFa, hnFb⟩ | ⟨hab, hfab⟩
  · rcases h2 with ⟨hFb, _⟩ | ⟨hbc, _⟩
    · exact absurd hFb hnFb
    · exact Or.inl ⟨hFa, fun hFc => hnFb (hbc.mpr hFc)⟩
  · rcases h2 with ⟨hFb, hnFc⟩ | ⟨hbc, hfbc⟩
    · exact Or.inl ⟨hab.mpr hFb, hnFc⟩
    · exact Or.inr ⟨hab.trans hbc, specFieldLE_trans sort lc hflip htrans f1 f2 f3 hfab hfbc⟩

/-- C2: for every list of entries (and any locale collation satisfying the
comparison laws), sortFiles returns a permutation in which every folder
precedes every non-folder entry whatever the sort field is, entries of equal
folder-ness are ordered by the current field and order, and the sort is
stable: any correctly ordered pair keeps its relative position. -/
theorem sortFiles_sorts (sort : SortState) (lc : String → String → Int)
    (hflip : ∀ a b, 0 ≤ lc a b ↔ lc b a ≤ 0)
    (htrans : ∀ a b c, lc a b ≤ 0 → lc b c ≤ 0 → lc a c ≤ 0)
    (files : List FsNode) :
    (sortFiles sort lc files).Perm files ∧
    (sortFiles sort lc files).Pairwise
      (fun f1 f2 => f2.type = "folder" → f1.type = "folder") ∧
    (sortFiles sort lc files).Pairwise
      (fun f1 f2 => (f1.type = "folder" ↔ f2.type = "folder") →
        specFieldLE sort lc f1 f2) ∧
    (∀ f1 f2, List.Sublist [f1, f2] files → compareFiles sort lc f1 f2 ≤ 0 →
      List.Sublist [f1, f2] (sortFiles sort lc files)) := by
  have htr : ∀ a b c : FsNode,
      decide (compareFiles sort lc a b ≤ 0) = true →
      decide (compareFiles sort lc b c ≤ 0) = true →
      decide (compareFiles sort lc a c ≤ 0) = true :=
    fun a b c h1 h2 => compLE_trans sort lc hflip htrans a b c h1 h2
  have hto : ∀ a b : FsNode,
      (decide (compareFiles sort lc a b ≤ 0) ||
        decide (compareFiles sort lc b a ≤ 0)) = true :=
    fun a b => compLE_total sort lc hflip a b
  have hs := List.sorted_mergeSort htr hto files
  unfold sortFiles
  refine ⟨List.mergeSort_perm files _, ?_, ?_, ?_⟩
  · refine hs.imp ?_
    intro a b h
    have h' := (compareFiles_le_iff sort lc a b).mp (of_decide_eq_true h)
    intro hFb
    rcases h' with ⟨hFa, _⟩ | ⟨hiff, _⟩
    · exact hFa
    · exact hiff.mpr hFb
  · refine hs.imp ?_
    intro a b h
    have h' := (compareFiles_le_iff sort lc a b).mp (of_decide_eq_true h)
    intro hiff
    rcases h' with ⟨hFa, hnFb⟩ | ⟨_, hfle⟩
    · exact absurd (hiff.mp hFa) hnFb
    · exact hfle
  · intro f1 f2 hsub hle
    exact List.pair_sublist_mergeSort htr hto (decide_eq_true hle) hsub

theorem lcConst_flip : ∀ a b, 0 ≤ lcConst a b ↔ lcConst b a ≤ 0 := by
  intro a b
  simp [lcConst]

theorem lcConst_trans :
    ∀ a b c, lcConst a b ≤ 0 → lcConst b c ≤ 0 → lcConst a c ≤ 0 := by
  intro a b c h1 h2
  simp [lcConst]

def demoSortState : SortState := { field := "date", order := "asc" }

def demoFolder : FsNode := .mk "docs" "Docs" none "folder" (some 10) none (some [])

def demoFile1 : FsNode := .mk "b" "B" none "machinecode" (some 3) (some 7) none

def demoFile2 : FsNode := .mk "c" "C" none "machinecode" (some 1) (some 9) none

def demoFiles : List FsNode := [demoFile1, demoFolder, demoFile2]

/-- C2 (witness): the sorting theorem applied to a concrete mixed list under
ascending date order, with the constant collation discharging the
comparison-law hypotheses. -/
theorem sortFiles_sorts_witness :
    (sortFiles demoSortState lcConst demoFiles).Perm demoFiles ∧
    (sortFiles demoSortState lcConst demoFiles).Pairwise
      (fun f1 f2 => f2.type = "folder" → f1.type = "folder") ∧
    (sortFiles demoSortState lcConst demoFiles).Pairwise
      (fun f1 f2 => (f1.type = "folder" ↔ f2.type = "folder") →
        specFieldLE demoSortState lcConst f1 f2) ∧
    (∀ f1 f2, List.Sublist [f1, f2] demoFiles →
      compareFiles demoSortState lcConst f1 f2 ≤ 0 →
      List.Sublist [f1, f2] (sortFiles demoSortState lcConst demoFiles)) :=
  sortFiles_sorts demoSortState lcConst lcConst_flip lcConst_trans demoFiles

/-! Theorems about the file poll. -/

/-- C3: a file poll without the force flag whose response carries the
last-seen ETag leaves the whole metadata (in particular eTag and the cached
files) unchanged and triggers no redraw; conversely a redraw or a change of
the cached file tree can only come from a response with a differing ETag. -/
theorem updateFiles_unchanged_on_same_etag (meta : Metadata) (resp : FilesResponse) :
    (some resp.eTag = meta.eTag → updateFiles false meta resp = (meta, false)) ∧
    ((updateFiles false meta resp).2 = true → some resp.eTag ≠ meta.eTag) ∧
    ((updateFiles false meta resp).1.files ≠ meta.files → some resp.eTag ≠ meta.eTag) := by
  have key : updateFiles false meta resp = (meta, false) ∨
      (some resp.eTag ≠ meta.eTag ∧
        updateFiles false meta resp =
          ({ meta with eTag := some resp.eTag, files := resp.files }, true)) := by
    cases ho : meta.origin with
    | none =>
      left
      simp [updateFiles, ho]
    | some o =>
      cases hg : getKey? meta.storages o with
      | none =>
        left
        simp [updateFiles, ho, hg]
      | some st =>
        by_cases he : some resp.eTag = meta.eTag
        · left
          simp [updateFiles, ho, hg, he]
        · right
          refine ⟨he, ?_⟩
          simp [updateFiles, ho, hg, he]
  rcases key with h | ⟨hne, h⟩
  · rw [h]
    exact ⟨fun _ => rfl, by simp, by simp⟩
  · rw [h]
    exact ⟨fun he => absurd he hne, fun _ => hne, fun _ => hne⟩

def c3Meta : Metadata :=
  { baseMeta with
      origin := some "LOCAL",
      storages := [("LOCAL", infoOf "PrusaLink gcodes" true)],
      files := [rootLocalDefined],
      eTag := some "etag-1" }

def c3Resp : FilesResponse := { eTag := "etag-1", files := [] }

/-- C3 (witness): a concrete non-force poll whose response repeats the
cached ETag is a no-op without redraw. -/
theorem updateFiles_unchanged_on_same_etag_witness :
    updateFiles false c3Meta c3Resp = (c3Meta, false) :=
  (updateFiles_unchanged_on_same_etag c3Meta c3Resp).1 rfl

/-- C7: a file poll with the force flag discards the stored ETag before the
request, so the response is always applied — the cached tree is replaced,
the response ETag is stored and a redraw is triggered — whatever ETag was
seen before. -/
theorem updateFiles_force_applies (meta : Metadata) (resp : FilesResponse)
    (o : String) (st : StorageInfo) (ho : meta.origin = some o)
    (hst : getKey? meta.storages o = some st) :
    updateFiles true meta resp =
      ({ meta with eTag := some resp.eTag, files := resp.files }, true) := by
  simp [updateFiles, ho, hst]

def c7Meta : Metadata :=
  { baseMeta with
      origin := some "LOCAL",
      storages := [("LOCAL", infoOf "PrusaLink gcodes" true)],
      files := [],
      eTag := some "etag-2" }

def c7Resp : FilesResponse := { eTag := "etag-2", files := [rootLocalDefined] }

/-- C7 (witness): a concrete forced poll applies the response even though
its ETag equals the previously stored one. -/
theorem updateFiles_force_applies_witness :
    updateFiles true c7Meta c7Resp =
      ({ c7Meta with eTag := some c7Resp.eTag, files := c7Resp.files }, true) :=
  updateFiles_force_applies c7Meta c7Resp "LOCAL" (infoOf "PrusaLink gcodes" true)
    rfl rfl

/-! Theorems about storage selection. -/

/-- C5: selecting a known storage whose cached available flag is false
changes nothing — neither the selected origin nor the current path — and
issues no forced file fetch. -/
theorem selectStorage_unavailable_noop (meta : Metadata) (origin : String)
    (st : StorageInfo) (hst : getKey? meta.storages origin = some st)
    (hun : st.available = false) :
    selectStorage meta origin = (meta, false) := by
  simp [selectStorage, hst, hun]

def c5Meta : Metadata :=
  { baseMeta with
      origin := some "LOCAL",
      current_path := ["PrusaLink gcodes"],
      storages := [("LOCAL", infoOf "PrusaLink gcodes" true),
        ("USB", infoOf "usb" false)] }

/-- C5 (witness): selecting the unavailable USB storage on a concrete state
keeps origin and path and issues no fetch. -/
theorem selectStorage_unavailable_noop_witness :
    selectStorage c5Meta "USB" = (c5Meta, false) :=
  selectStorage_unavailable_noop c5Meta "USB" (infoOf "usb" false) rfl rfl

/-! Theorems about the upload widget. -/

/-- C8: a failed upload is handled in exactly one of two ways — a present
request-level error result is delegated to the shared error handler, and an
absent result raises the generic unsuccessful-upload toast carrying the
file name; the two cases are mutually exclusive and exhaustive. -/
theorem onUploadError_exactly_one (fileName : String)
    (result : Option UploadErrorResult) :
    ((∃ r, result = some r ∧
        onUploadError fileName result = UploadFailureAction.handled r) ↔
      result ≠ none) ∧
    (onUploadError fileName result =
        UploadFailureAction.errorToast "ntf.error" "ntf.upld-unsuc" fileName ↔
      result = none) ∧
    ¬((∃ r, onUploadError fileName result = UploadFailureAction.handled r) ∧
      onUploadError fileName result =
        UploadFailureAction.errorToast "ntf.error" "ntf.upld-unsuc" fileName) := by
  cases result with
  | none =>
    refine ⟨?_, ?_, ?_⟩
    · simp [onUploadError]
    · simp [onUploadError]
    · rintro ⟨⟨r, hr⟩, _⟩
      simp [onUploadError] at hr
  | some r =>
    refine ⟨?_, ?_, ?_⟩
    · simp [onUploadError]
    · simp [onUploadError]
    · rintro ⟨_, htoast⟩
      simp [onUploadError] at htoast

def uploadInit : UploadState :=
  { isUploading := false, progress := 0, widget := "choose",
    reading := 0, inflight := 0 }

/-- C10 (counterexample): from the idle widget, two change events that both
pass the `!isUploading` guard before either file read resolves start two
uploads — after the two reads resolve, two upload requests are in flight at
once, contradicting the claim that at most one direct upload is ever in
flight.  `isUploading` only becomes true when `file.arrayBuffer()` resolves,
not when `uploadFile` is called. -/
theorem uploadStep_two_uploads_in_flight :
    (([UploadEvent.change true, UploadEvent.change true, UploadEvent.readDone,
        UploadEvent.readDone].foldl uploadStep uploadInit).inflight) = 2 := rfl

/-- C10 (amended): while isUploading is true a change event never starts a
new upload (the uploadFile call is guarded away, so the state is untouched),
and isUploading returns to false only through the settling of an upload,
which resets the widget to the choose state with progress 0.  Uploads whose
file read began while isUploading was still false may however overlap. -/
theorem uploadStep_guard_and_reset (s : UploadState) (e : UploadEvent)
    (h : s.isUploading = true) :
    (∀ hasFiles, uploadStep s (UploadEvent.change hasFiles) = s) ∧
    ((uploadStep s e).isUploading = false →
      e = UploadEvent.settle ∧ (uploadStep s e).widget = "choose" ∧
        (uploadStep s e).progress = 0) := by
  constructor
  · intro hasFiles
    simp [uploadStep, h]
  · intro hdone
    cases e with
    | change hasFiles =>
      rw [uploadStep] at hdone
      simp [h] at hdone
    | readDone =>
      rw [uploadStep] at hdone
      by_cases hr : s.reading > 0
      · simp [hr] at hdone
      · simp [hr] at hdone
        exact absurd hdone (by simp [h])
    | progressEvent pct =>
      rw [uploadStep] at hdone
      by_cases hr : s.inflight > 0
      · simp [hr] at hdone
      · simp [hr] at hdone
        exact absurd hdone (by simp [h])
    | settle =>
      by_cases hr : s.inflight > 0
      · refine ⟨rfl, ?_, ?_⟩ <;> simp [uploadStep, hr]
      · rw [uploadStep] at hdone
        simp [hr] at hdone
        exact absurd hdone (by simp [h])

def c10State : UploadState :=
  { isUploading := true, progress := 40, widget := "uploading",
    reading := 0, inflight := 1 }

/-- C10 (witness): on a concrete uploading state, a change event is ignored
and the settle event resets the widget to the choose state with progress
0. -/
theorem uploadStep_guard_and_reset_witness :
    uploadStep c10State (UploadEvent.change true) = c10State ∧
    (UploadEvent.settle = UploadEvent.settle ∧
      (uploadStep c10State UploadEvent.settle).widget = "choose" ∧
      (uploadStep c10State UploadEvent.settle).progress = 0) :=
  ⟨(uploadStep_guard_and_reset c10State (UploadEvent.change true) rfl).1 true,
    (uploadStep_guard_and_reset c10State UploadEvent.settle rfl).2 rfl⟩

/-! Lemmas about the insertion-ordered storage map. -/

theorem getKey?_setKey_self (m : List (String × StorageInfo)) (k : String)
    (v : StorageInfo) : getKey? (setKey m k v) k = some v := by
  induction m with
  | nil => simp [setKey, getKey?]
  | cons p rest ih =>
    by_cases h : p.1 = k
    · simp [setKey, h, getKey?]
    · cases p with
      | mk k' v' =>
        simp only [setKey]
        rw [if_neg h]
        simpa [getKey?, List.find?_cons, h] using ih

theorem getKey?_setKey_ne (m : List (String × StorageInfo)) (k k' : String)
    (v : StorageInfo) (h : k ≠ k') :
    getKey? (setKey m k v) k' = getKey? m k' := by
  induction m with
  | nil => simp [setKey, getKey?, h]
  | cons p rest ih =>
    by_cases hp : p.1 = k
    · cases p with
      | mk pk pv =>
        simp only [setKey]
        simp only at hp
        rw [if_pos hp]
        simp [getKey?, List.find?_cons, h, hp]
    · cases p with
      | mk pk pv =>
        simp only [setKey]
        simp only at hp
        rw [if_neg hp]
        by_cases hk' : pk = k'
        · simp [getKey?, List.find?_cons, hk']
        · simpa [getKey?, List.find?_cons, hk'] using ih

theorem storageDataOf_available (e : StorageEntry) :
    (storageDataOf e).available = e.available := rfl

theorem pse_storages (acc : Metadata × Bool × Bool) (e : StorageEntry) :
    (processStorageEntry acc e).1.storages =
      setKey acc.1.storages e.type (storageDataOf e) := by
  cases hg : getKey? acc.1.storages e.type <;>
    simp [processStorageEntry, hg]

theorem pse_origin_keep (acc : Metadata × Bool × Bool) (e : StorageEntry)
    (h : e.available = true) :
    (processStorageEntry acc e).1.origin = acc.1.origin := by
  cases hg : getKey? acc.1.storages e.type with
  | none => simp [processStorageEntry, hg]
  | some st =>
    simp only [processStorageEntry, hg]
    rw [if_neg]
    rintro ⟨-, -, hfalse⟩
    rw [storageDataOf_available, h] at hfalse
    cases hfalse

theorem pse_origin_none (acc : Metadata × Bool × Bool) (e : StorageEntry)
    (h : acc.1.origin = none) :
    (processStorageEntry acc e).1.origin = none := by
  cases hg : getKey? acc.1.storages e.type with
  | none => simpa [processStorageEntry, hg] using h
  | some st =>
    simp only [processStorageEntry, hg]
    split_ifs with hc
    · rfl
    · exact h

theorem pse_origin_ne (acc : Metadata × Bool × Bool) (e : StorageEntry)
    (o : String) (h : acc.1.origin = some o) (hne : e.type ≠ o) :
    (processStorageEntry acc e).1.origin = some o := by
  cases hg : getKey? acc.1.storages e.type with
  | none => simpa [processStorageEntry, hg] using h
  | some st =>
    simp only [processStorageEntry, hg]
    rw [if_neg]
    · exact h
    · rintro ⟨-, ho, -⟩
      rw [h] at ho
      exact hne (Option.some.injEq .. ▸ ho).symm

theorem pse_origin_clear (acc : Metadata × Bool × Bool) (e : StorageEntry)
    (st : StorageInfo) (h : acc.1.origin = some e.type)
    (hg : getKey? acc.1.storages e.type = some st)
    (hav : st.available = true) (hun : e.available = false) :
    (processStorageEntry acc e).1.origin = none := by
  simp only [processStorageEntry, hg]
  rw [if_pos]
  exact ⟨by rw [hav, storageDataOf_available, hun]; simp, h,
    by rw [storageDataOf_available, hun]⟩

theorem pse_origin_cases (acc : Metadata × Bool × Bool) (e : StorageEntry) :
    (processStorageEntry acc e).1.origin = acc.1.origin ∨
      (processStorageEntry acc e).1.origin = none := by
  cases hg : getKey? acc.1.storages e.type with
  | none => simp [processStorageEntry, hg]
  | some st =>
    simp only [processStorageEntry, hg]
    split_ifs with hc
    · exact Or.inr rfl
    · exact Or.inl rfl

theorem availAt_setKey_self (m : List (String × StorageInfo)) (k : String)
    (v : StorageInfo) : availAt (setKey m k v) k = v.available := by
  rw [availAt, getKey?_setKey_self]

theorem availAt_setKey_ne (m : List (String × StorageInfo)) (k k' : String)
    (v : StorageInfo) (h : k ≠ k') :
    availAt (setKey m k v) k' = availAt m k' := by
  rw [availAt, getKey?_setKey_ne m k k' v h, availAt]

theorem availAt_true_getKey? (m : List (String × StorageInfo)) (k : String)
    (h : availAt m k = true) :
    ∃ st, getKey? m k = some st ∧ st.available = true := by
  rw [availAt] at h
  cases hg : getKey? m k with
  | none => rw [hg] at h; cases h
  | some st => rw [hg] at h; exact ⟨st, rfl, h⟩

theorem pse_originInv (acc : Metadata × Bool × Bool) (e : StorageEntry)
    (h : originInv acc.1 = true) :
    originInv (processStorageEntry acc e).1 = true := by
  cases ho : acc.1.origin with
  | none =>
    rw [originInv, pse_origin_none acc e ho]
  | some o =>
    rw [originInv, ho] at h
    by_cases hte : e.type = o
    · cases hea : e.available with
      | false =>
        obtain ⟨st, hg, hav⟩ := availAt_true_getKey? _ _ h
        rw [originInv, pse_origin_clear acc e st (hte ▸ ho) (hte ▸ hg) hav hea]
      | true =>
        rw [originInv, pse_origin_keep acc e hea, ho]
        show availAt (processStorageEntry acc e).1.storages o = true
        rw [pse_storages, ← hte, availAt_setKey_self, storageDataOf_available,
          hea]
    · rw [originInv, pse_origin_ne acc e o ho hte]
      show availAt (processStorageEntry acc e).1.storages o = true
      rw [pse_storages, availAt_setKey_ne _ _ _ _ hte]
      exact h

theorem fold_originInv (list : List StorageEntry) :
    ∀ acc : Metadata × Bool × Bool, originInv acc.1 = true →
      originInv ((list.foldl processStorageEntry acc).1) = true := by
  induction list with
  | nil => exact fun acc h => h
  | cons e rest ih =>
    intro acc h
    exact ih (processStorageEntry acc e) (pse_originInv acc e h)

theorem fold_origin_none (list : List StorageEntry) :
    ∀ acc : Metadata × Bool × Bool, acc.1.origin = none →
      ((list.foldl processStorageEntry acc).1).origin = none := by
  induction list with
  | nil => exact fun acc h => h
  | cons e rest ih =>
    intro acc h
    exact ih (processStorageEntry acc e) (pse_origin_none acc e h)

theorem selectStorage_storages (meta : Metadata) (k : String) :
    (selectStorage meta k).1.storages = meta.storages := by
  cases hg : getKey? meta.storages k with
  | none => simp [selectStorage, hg]
  | some st =>
    cases hav : st.available <;> simp [selectStorage, hg, hav]

theorem selectStorage_origin_cases (meta : Metadata) (k : String) :
    (selectStorage meta k).1 = meta ∨
      ((selectStorage meta k).1.origin = some k ∧
        availAt meta.storages k = true) := by
  cases hg : getKey? meta.storages k with
  | none => simp [selectStorage, hg]
  | some st =>
    cases hav : st.available with
    | false => simp [selectStorage, hg, hav]
    | true =>
      right
      constructor
      · simp [selectStorage, hg, hav]
      · rw [availAt, hg]
        exact hav

theorem selectStorage_originInv (meta : Metadata) (k : String)
    (h : originInv meta = true) :
    originInv (selectStorage meta k).1 = true := by
  rcases selectStorage_origin_cases meta k with hid | ⟨ho, hav⟩
  · rw [hid]; exact h
  · rw [originInv, ho, selectStorage_storages]
    exact hav

theorem autoselectStorage_originInv (m : Metadata)
    (h : originInv m = true) :
    originInv (autoselectStorage m) = true := by
  rw [autoselectStorage]
  split_ifs with ho
  · cases hf : m.storages.find? (fun p => p.2.available) with
    | none => exact h
    | some p => exact selectStorage_originInv m p.1 h
  · exact h

theorem pse_PQ (t : String) (acc : Metadata × Bool × Bool) (e : StorageEntry)
    (he : e.type = t → e.available = false)
    (h : (acc.1.origin = some t ∧ availAt acc.1.storages t = true) ∨
      (acc.1.origin ≠ some t ∧ availAt acc.1.storages t = false)) :
    (((processStorageEntry acc e).1.origin = some t ∧
        availAt (processStorageEntry acc e).1.storages t = true) ∨
      ((processStorageEntry acc e).1.origin ≠ some t ∧
        availAt (processStorageEntry acc e).1.storages t = false)) ∧
    (e.type = t →
      ((processStorageEntry acc e).1.origin ≠ some t ∧
        availAt (processStorageEntry acc e).1.storages t = false)) := by
  by_cases hte : e.type = t
  · have hea : e.available = false := he hte
    have havail : availAt (processStorageEntry acc e).1.storages t = false := by
      rw [pse_storages, ← hte, availAt_setKey_self, storageDataOf_available, hea]
    have horig : (processStorageEntry acc e).1.origin ≠ some t := by
      rcases h with ⟨ho, hav⟩ | ⟨ho, hav⟩
      · obtain ⟨st, hg, hsav⟩ := availAt_true_getKey? _ _ hav
        rw [pse_origin_clear acc e st (by rw [hte]; exact ho)
          (by rw [hte]; exact hg) hsav hea]
        simp
      · rcases pse_origin_cases acc e with hc | hc <;> rw [hc]
        · exact ho
        · simp
    exact ⟨Or.inr ⟨horig, havail⟩, fun _ => ⟨horig, havail⟩⟩
  · have hstor : availAt (processStorageEntry acc e).1.storages t =
        availAt acc.1.storages t := by
      rw [pse_storages, availAt_setKey_ne _ _ _ _ hte]
    refine ⟨?_, fun hcontra => absurd hcontra hte⟩
    rcases h with ⟨ho, hav⟩ | ⟨ho, hav⟩
    · exact Or.inl ⟨pse_origin_ne acc e t ho hte, hstor.trans hav⟩
    · refine Or.inr ⟨?_, hstor.trans hav⟩
      rcases pse_origin_cases acc e with hc | hc <;> rw [hc]
      · exact ho
      · simp

theorem fold_Q (t : String) (list : List StorageEntry) :
    ∀ acc : Metadata × Bool × Bool,
      (∀ e ∈ list, e.type = t → e.available = false) →
      acc.1.origin ≠ some t → availAt acc.1.storages t = false →
      ((list.foldl processStorageEntry acc).1.origin ≠ some t ∧
        availAt (list.foldl processStorageEntry acc).1.storages t = false) := by
  induction list with
  | nil => exact fun acc _ h1 h2 => ⟨h1, h2⟩
  | cons e rest ih =>
    intro acc hall h1 h2
    apply ih
    · intro d hd
      exact hall d (List.mem_cons_of_mem e hd)
    · rcases pse_origin_cases acc e with hc | hc <;> rw [hc]
      · exact h1
      · simp
    · by_cases hte : e.type = t
      · rw [pse_storages, ← hte, availAt_setKey_self, storageDataOf_available]
        exact hall e (List.mem_cons_self e rest) hte
      · rw [pse_storages, availAt_setKey_ne _ _ _ _ hte]
        exact h2

theorem fold_clear (t : String) (list : List StorageEntry) :
    ∀ acc : Metadata × Bool × Bool,
      (∀ e ∈ list, e.type = t → e.available = false) →
      ((acc.1.origin = some t ∧ availAt acc.1.storages t = true) ∨
        (acc.1.origin ≠ some t ∧ availAt acc.1.storages t = false)) →
      (∃ e ∈ list, e.type = t) →
      ((list.foldl processStorageEntry acc).1.origin ≠ some t ∧
        availAt (list.foldl processStorageEntry acc).1.storages t = false) := by
  induction list with
  | nil =>
    intro acc _ _ hex
    simp at hex
  | cons e rest ih =>
    intro acc hall h hex
    by_cases hte : e.type = t
    · have hstep := pse_PQ t acc e (fun _ => hall e (List.mem_cons_self e rest) hte) h
      have hQ := hstep.2 hte
      exact fold_Q t rest (processStorageEntry acc e)
        (fun d hd => hall d (List.mem_cons_of_mem e hd)) hQ.1 hQ.2
    · have hstep := pse_PQ t acc e (fun h' => absurd h' hte) h
      apply ih (processStorageEntry acc e)
        (fun d hd => hall d (List.mem_cons_of_mem e hd)) hstep.1
      rcases hex with ⟨d, hd, hdt⟩
      rcases List.mem_cons.mp hd with rfl | hd'
      · exact absurd hdt hte
      · exact ⟨d, hd', hdt⟩

theorem autoselectStorage_ne (m : Metadata) (t : String)
    (h1 : m.origin ≠ some t) (h2 : availAt m.storages t = false) :
    (autoselectStorage m).origin ≠ some t := by
  rw [autoselectStorage]
  split_ifs with ho
  · cases hf : m.storages.find? (fun p => p.2.available) with
    | none =>
      rw [ho]
      simp
    | some p =>
      show ((selectStorage m p.1).1).origin ≠ some t
      rcases selectStorage_origin_cases m p.1 with hid | ⟨hop, hav⟩
      · rw [hid, ho]
        simp
      · rw [hop]
        intro hcontra
        have hpt : p.1 = t := Option.some.inj hcontra
        rw [hpt] at hav
        rw [h2] at hav
        cases hav
  · exact h1

/-- C9: if the selected origin is unset or names an available cached
storage before a storage poll, the same holds after it; moreover when the
poll's entries report the selected storage as unavailable, the selection is
cleared — afterwards the origin no longer names that storage (a later poll
may reselect an available one). -/
theorem updateStorage_origin_available (redraw : Bool) (meta : Metadata)
    (storage_list : Option (List StorageEntry))
    (hinv : originInv meta = true) :
    originInv (updateStorage redraw meta storage_list).1 = true ∧
    (∀ t list, meta.origin = some t → storage_list = some list →
      (∃ e ∈ list, e.type = t) →
      (∀ e ∈ list, e.type = t → e.available = false) →
      (updateStorage redraw meta storage_list).1.origin ≠ some t) := by
  have hm1 : (updateStorage redraw meta storage_list).1 =
      autoselectStorage (foldStorageList redraw meta storage_list).1 := rfl
  constructor
  · rw [hm1]
    apply autoselectStorage_originInv
    cases storage_list with
    | none => exact hinv
    | some list => exact fold_originInv list (meta, redraw, redraw) hinv
  · intro t list ho hsl hex hall
    rw [hm1, hsl]
    have hP1 : (meta, redraw, redraw).1.origin = some t ∧
        availAt (meta, redraw, redraw).1.storages t = true := by
      refine ⟨ho, ?_⟩
      rw [originInv, ho] at hinv
      exact hinv
    have hQ := fold_clear t list (meta, redraw, redraw) hall (Or.inl hP1) hex
    have hfold : foldStorageList redraw meta (some list) =
        list.foldl processStorageEntry (meta, redraw, redraw) := rfl
    rw [hfold]
    exact autoselectStorage_ne _ t hQ.1 hQ.2

def c9Meta : Metadata :=
  { baseMeta with
      origin := some "USB",
      storages := [("USB", infoOf "usb" true)] }

def c9List : List StorageEntry := [entryOf "USB" "usb" false]

/-- C9 (witness): a concrete poll reporting the selected USB storage as
unavailable clears the selection, and the invariant holds afterwards. -/
theorem updateStorage_origin_available_witness :
    originInv (updateStorage false c9Meta (some c9List)).1 = true ∧
    (updateStorage false c9Meta (some c9List)).1.origin ≠ some "USB" :=
  ⟨(updateStorage_origin_available false c9Meta (some c9List) rfl).1,
    (updateStorage_origin_available false c9Meta (some c9List) rfl).2
      "USB" c9List rfl rfl (by decide) (by decide)⟩

def c6Meta : Metadata :=
  { baseMeta with storages := [("USB", infoOf "usb" false)] }

def c6List : List StorageEntry :=
  [entryOf "LOCAL" "PrusaLink gcodes" true, entryOf "USB" "usb" true]

/-- C6 (counterexample): with no origin selected and a previously cached
(unavailable) USB storage, a response listing LOCAL first and USB second —
both available — makes the poller select USB, because the selection
iterates the cached storage map in insertion order (USB was inserted by an
earlier poll), not the response list, whose first available storage is
LOCAL. -/
theorem updateStorage_picks_cache_order_not_list_order :
    (updateStorage false c6Meta (some c6List)).1.origin = some "USB" ∧
    (c6List.find? (fun e => e.available)).map (fun e => e.type) =
      some "LOCAL" ∧
    ("USB" : String) ≠ "LOCAL" := by decide

theorem setKey_append_of_not_mem (m : List (String × StorageInfo))
    (k : String) (v : StorageInfo) (h : ¬ k ∈ m.map Prod.fst) :
    setKey m k v = m ++ [(k, v)] := by
  induction m with
  | nil => rfl
  | cons q rest ih =>
    cases q with
    | mk qk qv =>
      simp only [List.map_cons, List.mem_cons] at h
      push_neg at h
      simp only [setKey]
      rw [if_neg (fun hq => h.1 hq.symm)]
      rw [ih h.2]
      simp

theorem mem_setKey_map_fst (m : List (String × StorageInfo)) (k : String)
    (v : StorageInfo) (x : String) :
    x ∈ (setKey m k v).map Prod.fst ↔ x ∈ m.map Prod.fst ∨ x = k := by
  induction m with
  | nil => simp [setKey]
  | cons q rest ih =>
    cases q with
    | mk qk qv =>
      by_cases hq : qk = k
      · simp only [setKey]
        rw [if_pos hq]
        subst hq
        simp only [List.map_cons, List.mem_cons]
        tauto
      · simp only [setKey]
        rw [if_neg hq]
        simp only [List.map_cons, List.mem_cons, ih]
        tauto

theorem setKey_map_fst_nodup (m : List (String × StorageInfo)) (k : String)
    (v : StorageInfo) (h : (m.map Prod.fst).Nodup) :
    ((setKey m k v).map Prod.fst).Nodup := by
  induction m with
  | nil => simp [setKey]
  | cons q rest ih =>
    cases q with
    | mk qk qv =>
      rw [List.map_cons, List.nodup_cons] at h
      by_cases hq : qk = k
      · simp only [setKey]
        rw [if_pos hq]
        rw [List.map_cons, List.nodup_cons]
        exact ⟨hq ▸ h.1, h.2⟩
      · simp only [setKey]
        rw [if_neg hq]
        rw [List.map_cons, List.nodup_cons]
        refine ⟨?_, ih h.2⟩
        rw [mem_setKey_map_fst]
        rintro (hin | hkq)
        · exact h.1 hin
        · exact hq hkq

theorem fold_storages_nodup (list : List StorageEntry) :
    ∀ acc : Metadata × Bool × Bool,
      ((acc.1.storages.map Prod.fst).Nodup) →
      (((list.foldl processStorageEntry acc).1.storages.map Prod.fst).Nodup) := by
  induction list with
  | nil => exact fun acc h => h
  | cons e rest ih =>
    intro acc h
    apply ih
    rw [pse_storages]
    exact setKey_map_fst_nodup _ _ _ h

theorem find?_avail_getKey? (m : List (String × StorageInfo))
    (h : (m.map Prod.fst).Nodup) (p : String × StorageInfo)
    (hf : m.find? (fun q => q.2.available) = some p) :
    getKey? m p.1 = some p.2 := by
  induction m with
  | nil => cases hf
  | cons q rest ih =>
    rw [List.map_cons, List.nodup_cons] at h
    rw [List.find?_cons] at hf
    cases hav : q.2.available with
    | true =>
      simp only [hav, if_true] at hf
      have hqp : q = p := Option.some.inj hf
      subst hqp
      simp [getKey?, List.find?_cons]
    | false =>
      simp only [hav, Bool.false_eq_true, if_false] at hf
      have hp1 : p.1 ∈ rest.map Prod.fst :=
        List.mem_map_of_mem Prod.fst (List.mem_of_find?_eq_some hf)
      have hne : q.1 ≠ p.1 := fun hc => h.1 (hc ▸ hp1)
      rw [getKey?, List.find?_cons]
      have hd : decide (q.1 = p.1) = false := by simp [hne]
      rw [hd]
      exact ih h.2 hf

theorem fold_storages_append (list : List StorageEntry) :
    ∀ acc : Metadata × Bool × Bool,
      (∀ e ∈ list, ¬ e.type ∈ acc.1.storages.map Prod.fst) →
      ((list.map (fun e => e.type)).Nodup) →
      (list.foldl processStorageEntry acc).1.storages =
        acc.1.storages ++ list.map (fun e => (e.type, storageDataOf e)) := by
  induction list with
  | nil =>
    intro acc _ _
    simp
  | cons e rest ih =>
    intro acc hnotin hnd
    rw [List.map_cons, List.nodup_cons] at hnd
    rw [List.foldl_cons, ih]
    · rw [pse_storages,
        setKey_append_of_not_mem _ _ _ (hnotin e (List.mem_cons_self e rest))]
      simp
    · intro d hd
      rw [pse_storages, mem_setKey_map_fst]
      rintro (hin | hdk)
      · exact hnotin d (List.mem_cons_of_mem e hd) hin
      · exact hnd.1 (hdk ▸ List.mem_map_of_mem (fun e => e.type) hd)
    · exact hnd.2

theorem autoselectStorage_storages (m : Metadata) :
    (autoselectStorage m).storages = m.storages := by
  rw [autoselectStorage]
  split_ifs with ho
  · cases hf : m.storages.find? (fun p => p.2.available) with
    | none => rfl
    | some p =>
      show (selectStorage m p.1).1.storages = m.storages
      exact selectStorage_storages m p.1
  · rfl

/-- C6 (amended): while no origin is selected, a storage poll selects the
first available storage in the iteration order of the cached storage map
after merging the response (JavaScript object insertion order: previously
known storage types first, then new types in response order), setting the
current path to its name, and selects none when no cached storage is
available; when the cache was empty before the poll, this coincides with
the first available storage in response-list order. -/
theorem updateStorage_selects_first_cached (redraw : Bool) (meta : Metadata)
    (list : List StorageEntry) (ho : meta.origin = none)
    (hnd : (meta.storages.map Prod.fst).Nodup) :
    ((updateStorage redraw meta (some list)).1.storages.find?
        (fun p => p.2.available) = none →
      (updateStorage redraw meta (some list)).1.origin = none) ∧
    (∀ k v, (updateStorage redraw meta (some list)).1.storages.find?
        (fun p => p.2.available) = some (k, v) →
      (updateStorage redraw meta (some list)).1.origin = some k ∧
        (updateStorage redraw meta (some list)).1.current_path = [v.name]) ∧
    (meta.storages = [] → (list.map (fun e => e.type)).Nodup →
      (updateStorage redraw meta (some list)).1.origin =
        (list.find? (fun e => e.available)).map (fun e => e.type)) := by
  have hM : (updateStorage redraw meta (some list)).1 =
      autoselectStorage (list.foldl processStorageEntry (meta, redraw, redraw)).1 :=
    rfl
  have hMo : ((list.foldl processStorageEntry (meta, redraw, redraw)).1).origin = none :=
    fold_origin_none list _ ho
  have hMnd : (((list.foldl processStorageEntry (meta, redraw, redraw)).1).storages.map
      Prod.fst).Nodup := fold_storages_nodup list _ hnd
  have hstor := autoselectStorage_storages
    (list.foldl processStorageEntry (meta, redraw, redraw)).1
  have key1 : ((list.foldl processStorageEntry (meta, redraw, redraw)).1).storages.find?
        (fun p => p.2.available) = none →
      (autoselectStorage (list.foldl processStorageEntry (meta, redraw, redraw)).1).origin =
        none := by
    intro hfind
    rw [autoselectStorage, if_pos hMo, hfind]
    exact hMo
  have key2 : ∀ k v,
      ((list.foldl processStorageEntry (meta, redraw, redraw)).1).storages.find?
        (fun p => p.2.available) = some (k, v) →
      (autoselectStorage (list.foldl processStorageEntry (meta, redraw, redraw)).1).origin =
          some k ∧
        (autoselectStorage (list.foldl processStorageEntry (meta, redraw, redraw)).1).current_path =
          [v.name] := by
    intro k v hfind
    rw [autoselectStorage, if_pos hMo, hfind]
    have hget : getKey? ((list.foldl processStorageEntry (meta, redraw, redraw)).1).storages k =
        some v := find?_avail_getKey? _ hMnd (k, v) hfind
    have hav : v.available = true := by
      have h2 := List.find?_some hfind
      simpa using h2
    show ((selectStorage (list.foldl processStorageEntry (meta, redraw, redraw)).1 k).1).origin =
        some k ∧
      ((selectStorage (list.foldl processStorageEntry (meta, redraw, redraw)).1 k).1).current_path =
        [v.name]
    rw [selectStorage, hget]
    simp [hav]
  refine ⟨?_, ?_, ?_⟩
  · intro hfind
    rw [hM] at hfind ⊢
    rw [hstor] at hfind
    exact key1 hfind
  · intro k v hfind
    rw [hM] at hfind ⊢
    rw [hstor] at hfind
    exact key2 k v hfind
  · intro hempty hlnd
    have hMs : ((list.foldl processStorageEntry (meta, redraw, redraw)).1).storages =
        list.map (fun e => (e.type, storageDataOf e)) := by
      have happ := fold_storages_append list (meta, redraw, redraw)
        (fun e he hin => by
          rw [hempty] at hin
          simp at hin) hlnd
      rw [happ]
      rw [show (meta, redraw, redraw).1.storages = meta.storages from rfl, hempty]
      simp
    have hcomp : list.find?
        ((fun p : String × StorageInfo => p.2.available) ∘
          (fun e => (e.type, storageDataOf e))) =
        list.find? (fun e => e.available) := rfl
    cases hfl : list.find? (fun e => e.available) with
    | none =>
      have hnone : ((list.foldl processStorageEntry (meta, redraw, redraw)).1).storages.find?
          (fun p => p.2.available) = none := by
        rw [hMs, List.find?_map, hcomp, hfl]
        rfl
      rw [hM, key1 hnone]
      rfl
    | some e0 =>
      have hsome : ((list.foldl processStorageEntry (meta, redraw, redraw)).1).storages.find?
          (fun p => p.2.available) = some (e0.type, storageDataOf e0) := by
        rw [hMs, List.find?_map, hcomp, hfl]
        rfl
      rw [hM, (key2 e0.type (storageDataOf e0) hsome).1]
      rfl

def c6wList : List StorageEntry :=
  [entryOf "SDCARD" "sdcard" false, entryOf "LOCAL" "PrusaLink gcodes" true]

/-- C6 (witness): starting from an empty cache with no origin selected, the
poll selects the first available storage in response order. -/
theorem updateStorage_selects_first_cached_witness :
    (updateStorage false baseMeta (some c6wList)).1.origin =
      (c6wList.find? (fun e => e.available)).map (fun e => e.type) :=
  (updateStorage_selects_first_cached false baseMeta c6wList rfl
    (by decide)).2.2 rfl (by decide)
